import Mathlib

/-!
Verification of the AGITB (Artificial General Intelligence TestBed) core
engine, shallowly embedded from the C++ sources `include/utils.h` (the
authoritative revision) with `utils.h` and the test drivers as context.

Patterns (`std::bitset<BitsPerInput>`) are modelled as `List Bool` of a
given width `w`; pseudo-random Bernoulli draws are modelled as explicit
boolean streams passed in as function arguments, so every theorem
quantifies over all possible draw outcomes.  `std::vector` operations that
are undefined on an empty vector (`pop_back`, `back`, `front`) are
modelled by returning `none`.
-/

namespace AGITB

/-- All-zero pattern of width `w` (`Input{}`, a value-initialised bitset). -/
def patZero (w : Nat) : List Bool := List.replicate w false

/-- All-ones pattern of width `w` (`~Input{}`). -/
def patOnes (w : Nat) : List Bool := List.replicate w true

/-- Bitwise AND of two patterns (`a & b` on bitsets). -/
def patAnd (a b : List Bool) : List Bool := List.zipWith and a b

/-- Two width-`w` patterns are admissible neighbours when their bitwise AND
is the all-zero pattern (the refractory-period invariant). -/
def admissible (w : Nat) (a b : List Bool) : Prop := patAnd a b = patZero w

/-- Embeds `utils::random<Input>(turn_off...)` from `include/utils.h`:
bit `i` of the result is a fresh Bernoulli draw unless some pattern in
`offs` has bit `i` set, in which case it stays 0.  `draws` is the stream
of Bernoulli outcomes, indexed by bit position. -/
def random (w : Nat) (offs : List (List Bool)) (draws : Nat → Bool) : List Bool :=
  (List.range w).map (fun i => if offs.any (fun off => off.getD i false) then false else draws i)

/-- Embeds the `while (base::size() < length)` loop of
`InputSequence(random_tag, length)`: generates `n` further patterns, each
drawn with the previous one turned off.  `draws k` is the Bernoulli stream
used for the `k`-th generated pattern. -/
def extendSeq (w : Nat) (prev : List Bool) (n : Nat) (draws : Nat → Nat → Bool)
    (idx : Nat) : List (List Bool) :=
  match n with
  | 0 => []
  | Nat.succ m =>
    let nxt := random w [prev] (draws idx)
    nxt :: extendSeq w nxt m draws (idx + 1)

/-- Embeds `InputSequence(random_tag, length)` from `include/utils.h`:
empty for length 0; otherwise an unconstrained first pattern followed by
patterns each drawn with the previous one turned off. -/
def randomSeq (w len : Nat) (draws : Nat → Nat → Bool) : List (List Bool) :=
  match len with
  | 0 => []
  | Nat.succ n =>
    let first := random w [] (draws 0)
    first :: extendSeq w first n draws 1

/-- Embeds `InputSequence(circular_random_tag, length)` from
`include/utils.h`: builds a random sequence, then `pop_back()` and
`push_back(random(back(), front()))`.  `pop_back`/`back`/`front` on an
empty vector are undefined behaviour, modelled as `none`. -/
def circularRandomSeq (w len : Nat) (draws : Nat → Nat → Bool)
    (lastDraws : Nat → Bool) : Option (List (List Bool)) :=
  let s := randomSeq w len draws
  if s.isEmpty then none
  else
    let s2 := s.dropLast
    match s2.getLast?, s2.head? with
    | some back, some front => some (s2 ++ [random w [back, front] lastDraws])
    | _, _ => none

/-- Embeds `InputSequence(trivial_tag, length)` from `include/utils.h`:
`resize(length)` (value-initialised, all-zero patterns) followed by
`back() = ~Input{}`.  `back()` on an empty vector is undefined behaviour,
modelled as `none`. -/
def trivialSeq (w len : Nat) : Option (List (List Bool)) :=
  let s := List.replicate len (patZero w)
  if s.isEmpty then none
  else some (s.dropLast ++ [patOnes w])

/-- A sequence is circularly admissible when every adjacent pair is
admissible and so is the wraparound pair (last, first). -/
def circularAdmissible (w : Nat) (s : List (List Bool)) : Prop :=
  List.Chain' (admissible w) s ∧
  ∀ a b, s.getLast? = some a → s.head? = some b → admissible w a b

theorem random_length (w : Nat) (offs : List (List Bool)) (draws : Nat → Bool) :
    (random w offs draws).length = w := by
  simp [random]

theorem random_admissible_of_mem (w : Nat) (offs : List (List Bool))
    (draws : Nat → Bool) (p : List Bool) (hmem : p ∈ offs) (hlen : p.length = w) :
    admissible w p (random w offs draws) ∧ admissible w (random w offs draws) p := by
  have hr : (random w offs draws).length = w := random_length w offs draws
  have hkey : ∀ i, i < w →
      (random w offs draws).getD i false = false ∨ p.getD i false = false := by
    intro i hi
    by_cases hp : p.getD i false = true
    · left
      have hlt : i < (random w offs draws).length := by rw [hr]; exact hi
      rw [List.getD_eq_getElem _ _ hlt]
      simp only [random, List.getElem_map, List.getElem_range]
      have hany : offs.any (fun off => off.getD i false) = true :=
        List.any_eq_true.mpr ⟨p, hmem, hp⟩
      rw [if_pos hany]
    · right; simpa using hp
  constructor
  · apply List.ext_getElem
    · simp [patAnd, patZero, hlen, hr]
    · intro i h1 h2
      have hi : i < w := by simpa [patZero] using h2
      have hplt : i < p.length := by rw [hlen]; exact hi
      have hrlt : i < (random w offs draws).length := by rw [hr]; exact hi
      simp only [patAnd, List.getElem_zipWith, patZero, List.getElem_replicate]
      rcases hkey i hi with h | h
      · rw [List.getD_eq_getElem _ _ hrlt] at h
        simp [h]
      · rw [List.getD_eq_getElem _ _ hplt] at h
        simp [h]
  · apply List.ext_getElem
    · simp [patAnd, patZero, hlen, hr]
    · intro i h1 h2
      have hi : i < w := by simpa [patZero] using h2
      have hplt : i < p.length := by rw [hlen]; exact hi
      have hrlt : i < (random w offs draws).length := by rw [hr]; exact hi
      simp only [patAnd, List.getElem_zipWith, patZero, List.getElem_replicate]
      rcases hkey i hi with h | h
      · rw [List.getD_eq_getElem _ _ hrlt] at h
        simp [h]
      · rw [List.getD_eq_getElem _ _ hplt] at h
        simp [h]

theorem extendSeq_length (w : Nat) (prev : List Bool) (n : Nat)
    (draws : Nat → Nat → Bool) (idx : Nat) :
    (extendSeq w prev n draws idx).length = n := by
  induction n generalizing prev idx with
  | zero => simp [extendSeq]
  | succ m ih => simp [extendSeq, ih]

theorem extendSeq_mem_length (w : Nat) (prev : List Bool) (n : Nat)
    (draws : Nat → Nat → Bool) (idx : Nat) (p : List Bool)
    (hp : p ∈ extendSeq w prev n draws idx) : p.length = w := by
  induction n generalizing prev idx with
  | zero => simp [extendSeq] at hp
  | succ m ih =>
    simp only [extendSeq, List.mem_cons] at hp
    rcases hp with h | h
    · rw [h]; exact random_length w _ _
    · exact ih _ _ h

theorem extendSeq_chain (w : Nat) (prev : List Bool) (n : Nat)
    (draws : Nat → Nat → Bool) (idx : Nat) (hlen : prev.length = w) :
    List.Chain' (admissible w) (prev :: extendSeq w prev n draws idx) := by
  induction n generalizing prev idx with
  | zero => simp [extendSeq]
  | succ m ih =>
    simp only [extendSeq]
    refine List.chain'_cons.mpr ⟨?_, ?_⟩
    · exact (random_admissible_of_mem w [prev] (draws idx) prev (by simp) hlen).1
    · exact ih (random w [prev] (draws idx)) (idx + 1) (random_length w _ _)

theorem randomSeq_length (w len : Nat) (draws : Nat → Nat → Bool) :
    (randomSeq w len draws).length = len := by
  cases len with
  | zero => simp [randomSeq]
  | succ n => simp [randomSeq, extendSeq_length]

theorem randomSeq_mem_length (w len : Nat) (draws : Nat → Nat → Bool)
    (p : List Bool) (hp : p ∈ randomSeq w len draws) : p.length = w := by
  cases len with
  | zero => simp [randomSeq] at hp
  | succ n =>
    simp only [randomSeq, List.mem_cons] at hp
    rcases hp with h | h
    · rw [h]; exact random_length w _ _
    · exact extendSeq_mem_length w _ n draws 1 p h

theorem randomSeq_chain (w len : Nat) (draws : Nat → Nat → Bool) :
    List.Chain' (admissible w) (randomSeq w len draws) := by
  cases len with
  | zero => simp [randomSeq]
  | succ n => exact extendSeq_chain w _ n draws 1 (random_length w _ _)

/-- For `len ≥ 2`, `circularRandomSeq` succeeds and its result is the
dropped-last random sequence with a final pattern drawn with both the new
last and the first pattern turned off; the result has the requested length
and is circularly admissible. -/
theorem circularRandomSeq_spec (w len : Nat) (draws : Nat → Nat → Bool)
    (lastDraws : Nat → Bool) (h2 : 2 ≤ len) :
    ∃ s, circularRandomSeq w len draws lastDraws = some s ∧
      s.length = len ∧ circularAdmissible w s := by
  set s0 := randomSeq w len draws with hs0
  have hlen0 : s0.length = len := randomSeq_length w len draws
  have hne : s0 ≠ [] := by
    intro h; rw [h] at hlen0; simp at hlen0; omega
  set s2 := s0.dropLast with hs2
  have hlen2 : s2.length = len - 1 := by
    rw [hs2, List.length_dropLast, hlen0]
  have hne2 : s2 ≠ [] := by
    intro h; rw [h] at hlen2; simp at hlen2; omega
  have hbk : s2.getLast? = some (s2.getLast hne2) :=
    List.getLast?_eq_getLast_of_ne_nil hne2
  set bk := s2.getLast hne2 with hbkdef
  obtain ⟨fr, hfr⟩ : ∃ fr, s2.head? = some fr := by
    cases hh : s2.head? with
    | none => exact absurd (List.head?_eq_none_iff.mp hh) hne2
    | some fr => exact ⟨fr, rfl⟩
  have hbk_mem : bk ∈ s2 := List.getLast_mem hne2
  have hfr_mem : fr ∈ s2 := List.mem_of_mem_head? (by simp [hfr])
  have hmem_len : ∀ p ∈ s2, p.length = w := by
    intro p hp
    exact randomSeq_mem_length w len draws p ((List.dropLast_sublist s0).mem hp)
  have hbk_len : bk.length = w := hmem_len bk hbk_mem
  have hfr_len : fr.length = w := hmem_len fr hfr_mem
  set x := random w [bk, fr] lastDraws with hxdef
  have heq : circularRandomSeq w len draws lastDraws = some (s2 ++ [x]) := by
    rw [circularRandomSeq]
    simp only [← hs0, List.isEmpty_iff]
    rw [if_neg hne, ← hs2, hbk, hfr]
  refine ⟨s2 ++ [x], heq, ?_, ?_, ?_⟩
  · rw [List.length_append, hlen2]; simp; omega
  · -- adjacent pairs: the dropped-last chain extended with the new last pattern
    have hchain0 : List.Chain' (admissible w) s0 := randomSeq_chain w len draws
    have hchain2 : List.Chain' (admissible w) s2 := by
      have hdecomp : s2 ++ [s0.getLast hne] = s0 := List.dropLast_append_getLast hne
      rw [← hdecomp] at hchain0
      exact (List.chain'_append.mp hchain0).1
    refine List.chain'_append.mpr ⟨hchain2, by simp, ?_⟩
    intro a ha b hb
    rw [hbk] at ha
    have ha2 : a = bk := by
      have := by simpa using ha
      exact this.symm
    have hb2 : b = x := by
      have := by simpa using hb
      exact this.symm
    rw [ha2, hb2]
    exact (random_admissible_of_mem w [bk, fr] lastDraws bk (by simp) hbk_len).1
  · -- the wraparound pair (last, first)
    intro a b hlast hhead
    rw [List.getLast?_concat] at hlast
    rw [List.head?_append_of_ne_nil s2 hne2, hfr] at hhead
    have ha : a = x := by injection hlast with h; exact h.symm
    have hb : b = fr := by injection hhead with h; exact h.symm
    rw [ha, hb]
    exact (random_admissible_of_mem w [bk, fr] lastDraws fr (by simp) hfr_len).2

/-- C1: for every length at least 1, every sequence produced by the random
constructor has all-zero bitwise AND on each adjacent pair; for every
length at least 2, every sequence produced by the circular_random
constructor additionally has all-zero bitwise AND on the wraparound pair
(last, first). -/
theorem claim_C1_refractory_admissibility (w : Nat) :
    (∀ len (draws : Nat → Nat → Bool), 1 ≤ len →
        List.Chain' (admissible w) (randomSeq w len draws)) ∧
    (∀ len (draws : Nat → Nat → Bool) (lastDraws : Nat → Bool) s, 2 ≤ len →
        circularRandomSeq w len draws lastDraws = some s →
        circularAdmissible w s) := by
  constructor
  · intro len draws _
    exact randomSeq_chain w len draws
  · intro len draws lastDraws s h2 heq
    obtain ⟨s', heq', _, hadm⟩ := circularRandomSeq_spec w len draws lastDraws h2
    rw [heq] at heq'
    injection heq' with h
    rw [h]
    exact hadm

theorem claim_C1_refractory_admissibility_witness :
    List.Chain' (admissible 2) (randomSeq 2 1 (fun _ _ => true)) ∧
    circularAdmissible 2 [[false, false], [false, false]] := by
  constructor
  · exact (claim_C1_refractory_admissibility 2).1 1 (fun _ _ => true) (by decide)
  · exact (claim_C1_refractory_admissibility 2).2 2 (fun _ _ => false) (fun _ => false)
      [[false, false], [false, false]] (by decide) (by rfl)

/-- C6 counterexample: at length 1, the circular_random constructor does
not produce a sequence of all-zero patterns; the construction reaches
vector operations that are undefined on an empty vector (modelled as
`none`), even with every random draw fixed to 0. -/
theorem claim_C6_counterexample :
    circularRandomSeq 10 1 (fun _ _ => false) (fun _ => false) = none := by rfl

/-- C6 amended: for every length less than 2 the circular_random
constructor is not well-defined: the construction performs pop_back, back
or front on an empty underlying vector (undefined behaviour, modelled as
`none`), so no sequence at all is returned. -/
theorem claim_C6_amended (w len : Nat) (draws : Nat → Nat → Bool)
    (lastDraws : Nat → Bool) (h : len < 2) :
    circularRandomSeq w len draws lastDraws = none := by
  cases len with
  | zero => rfl
  | succ n =>
    have hn : n = 0 := by omega
    subst hn
    rfl

theorem claim_C6_amended_witness :
    (0 : Nat) < 2 ∧ circularRandomSeq 3 0 (fun _ _ => true) (fun _ => true) = none :=
  ⟨by decide, claim_C6_amended 3 0 (fun _ _ => true) (fun _ => true) (by decide)⟩

/-- C9: for every length at least 1, the trivial constructor
deterministically returns a sequence of exactly that length in which every
pattern is all-zero except the last, which is all-ones. -/
theorem claim_C9_trivial (w len : Nat) (h : 1 ≤ len) :
    trivialSeq w len = some (List.replicate (len - 1) (patZero w) ++ [patOnes w]) ∧
    (List.replicate (len - 1) (patZero w) ++ [patOnes w]).length = len := by
  obtain ⟨n, rfl⟩ : ∃ n, len = n + 1 := ⟨len - 1, by omega⟩
  constructor
  · rw [trivialSeq]
    rw [List.replicate_succ']
    simp [List.dropLast_concat]
  · simp

theorem claim_C9_trivial_witness :
    (1 : Nat) ≤ 1 ∧
    (trivialSeq 3 1 = some (List.replicate 0 (patZero 3) ++ [patOnes 3]) ∧
     (List.replicate 0 (patZero 3) ++ [patOnes 3]).length = 1) :=
  ⟨by decide, claim_C9_trivial 3 1 (by decide)⟩

/-! ## The Model wrapper (`utils::Model` in `include/utils.h`)

The opaque capability `ModelUnderTest` is modelled as an arbitrary state
type `σ` with a transition function `step : σ → P → σ × P` giving the
updated capability state and the prediction returned by `c(t)`.  The C++
class holds the capability plus the cached `current_prediction`, and its
`operator==` is `= default`, i.e. memberwise structural equality — which
is exactly equality of the Lean structure below. -/

structure Model (σ P : Type) where
  model : σ
  current_prediction : P
deriving DecidableEq

section ModelOps

variable {σ P : Type} (step : σ → P → σ × P)

/-- Embeds `operator<<(const Input& p)`: feeds one input and caches the
capability's returned prediction. -/
def feedOne (M : Model σ P) (p : P) : Model σ P :=
  { model := (step M.model p).1, current_prediction := (step M.model p).2 }

/-- Embeds `operator<<(Range&&)`: feeds each element of the range in
order. -/
def feedAll (M : Model σ P) (l : List P) : Model σ P :=
  l.foldl (feedOne step) M

/-- Embeds `Model::process`: records, before consuming each input, the
currently cached prediction; returns the updated model and the recorded
predictions. -/
def process (M : Model σ P) (inputs : List P) : Model σ P × List P :=
  match inputs with
  | [] => (M, [])
  | p :: rest =>
    let pred := M.current_prediction
    let M2 := feedOne step M p
    let r := process M2 rest
    (r.1, pred :: r.2)

/-- Model state after `k` cumulative repetitions of `process` on the same
sequence. -/
def repFeed (M : Model σ P) (inputs : List P) : Nat → Model σ P
  | 0 => M
  | Nat.succ k => (process step (repFeed M inputs k) inputs).1

/-- Embeds `Model::generate`: `length` times, append the cached prediction
to the output and re-expose that same prediction to the model. -/
def generate (n : Nat) (M : Model σ P) : List P × Model σ P :=
  match n with
  | 0 => ([], M)
  | Nat.succ m =>
    let pred := M.current_prediction
    let M2 := feedOne step M pred
    let r := generate m M2
    (pred :: r.1, r.2)

theorem process_nil (M : Model σ P) : process step M [] = (M, []) := rfl

theorem repFeed_succ_shift (M : Model σ P) (inputs : List P) (k : Nat) :
    repFeed step (process step M inputs).1 inputs k = repFeed step M inputs (k + 1) := by
  induction k with
  | zero => rfl
  | succ k ih => simp only [repFeed, ih]

theorem generate_length (n : Nat) (M : Model σ P) :
    (generate step n M).1.length = n := by
  induction n generalizing M with
  | zero => rfl
  | succ m ih => simp [generate, ih]

theorem generate_state (n : Nat) (M : Model σ P) :
    (generate step n M).2 = feedAll step M (generate step n M).1 := by
  induction n generalizing M with
  | zero => rfl
  | succ m ih => simp only [generate, feedAll, List.foldl_cons]; exact ih _

theorem generate_get (n : Nat) (M : Model σ P) (i : Nat) (hi : i < n) :
    (generate step n M).1[i]? =
      some ((feedAll step M ((generate step n M).1.take i)).current_prediction) := by
  induction n generalizing M i with
  | zero => omega
  | succ m ih =>
    cases i with
    | zero => simp [generate, feedAll]
    | succ j =>
      simp only [generate, List.getElem?_cons_succ, List.take_succ_cons, feedAll,
        List.foldl_cons]
      exact ih _ j (by omega)

end ModelOps

section TimeToLearn

variable {σ P : Type} (step : σ → P → σ × P) [DecidableEq P]

/-- The loop of `Model::time_to_learn`:
`for (tau = 0; tau < timeframe; tau += inputs.size())`, returning the pair
(learning time, final model state).  The recursion terminates because the
matching test always succeeds immediately on an empty sequence. -/
def ttlGo (timeframe : Nat) (inputs : List P) (M : Model σ P) (tau : Nat) :
    Nat × Model σ P :=
  if h : tau < timeframe then
    if hm : (process step M inputs).2 = inputs then (tau, (process step M inputs).1)
    else ttlGo timeframe inputs (process step M inputs).1 (tau + inputs.length)
  else (timeframe, M)
termination_by timeframe - tau
decreasing_by
  cases hi : inputs with
  | nil => rw [hi] at hm; simp [process] at hm
  | cons a l => simp only [List.length_cons]; omega

/-- Embeds `Model::time_to_learn(inputs, timeframe)`. -/
def time_to_learn (M : Model σ P) (inputs : List P) (timeframe : Nat) :
    Nat × Model σ P :=
  ttlGo step timeframe inputs M 0

/-- Embeds `Model::learn(inputs, timeframe)`. -/
def learn (M : Model σ P) (inputs : List P) (timeframe : Nat) : Bool :=
  decide ((time_to_learn step M inputs timeframe).1 < timeframe)

theorem ttlGo_spec (timeframe : Nat) (inputs : List P) (M : Model σ P) (tau : Nat) :
    (ttlGo step timeframe inputs M tau).1 ≤ timeframe ∧
    ((ttlGo step timeframe inputs M tau).1 < timeframe →
      ∃ k, (ttlGo step timeframe inputs M tau).1 = tau + k * inputs.length ∧
        (process step (repFeed step M inputs k) inputs).2 = inputs ∧
        ∀ j < k, (process step (repFeed step M inputs j) inputs).2 ≠ inputs) ∧
    ((ttlGo step timeframe inputs M tau).1 = timeframe →
      ∀ k, tau + k * inputs.length < timeframe →
        (process step (repFeed step M inputs k) inputs).2 ≠ inputs) := by
  induction M, tau using ttlGo.induct step timeframe inputs with
  | case1 M tau h hm =>
    rw [ttlGo, dif_pos h, dif_pos hm]
    refine ⟨by omega, ?_, ?_⟩
    · intro _
      exact ⟨0, by simp, by simpa [repFeed] using hm, by omega⟩
    · intro heq
      omega
  | case2 M tau h hm ih =>
    rw [ttlGo, dif_pos h, dif_neg hm]
    refine ⟨ih.1, ?_, ?_⟩
    · intro hlt
      obtain ⟨k, hk, hmatch, hnomatch⟩ := ih.2.1 hlt
      refine ⟨k + 1, by rw [hk]; ring, ?_, ?_⟩
      · rw [← repFeed_succ_shift]; exact hmatch
      · intro j hj
        cases j with
        | zero => simpa [repFeed] using hm
        | succ j' =>
          rw [← repFeed_succ_shift]
          exact hnomatch j' (by omega)
    · intro heq k hk
      cases k with
      | zero => simpa [repFeed] using hm
      | succ k' =>
        rw [← repFeed_succ_shift]
        exact ih.2.2 heq k' (by rw [Nat.succ_mul] at hk; omega)
  | case3 M tau h =>
    rw [ttlGo, dif_neg h]
    refine ⟨le_refl _, ?_, ?_⟩
    · intro hlt; omega
    · intro _ k hk
      omega

/-- C2: `time_to_learn(seq, T)` on a non-empty sequence returns a learning
time `t` with `0 ≤ t ≤ T`; any `t < T` is a multiple `k·|seq|` such that
cumulatively re-feeding the sequence (state carried over) makes the
predictions recorded before each element equal the sequence at repetition
`k` and at no earlier repetition; `t = T` means no repetition fitting the
budget ever reached a perfect match. -/
theorem claim_C2_time_to_learn (timeframe : Nat) (inputs : List P) (M : Model σ P)
    (hne : inputs ≠ []) :
    (time_to_learn step M inputs timeframe).1 ≤ timeframe ∧
    ((time_to_learn step M inputs timeframe).1 < timeframe →
      ∃ k, (time_to_learn step M inputs timeframe).1 = k * inputs.length ∧
        (process step (repFeed step M inputs k) inputs).2 = inputs ∧
        ∀ j < k, (process step (repFeed step M inputs j) inputs).2 ≠ inputs) ∧
    ((time_to_learn step M inputs timeframe).1 = timeframe →
      ∀ k, k * inputs.length < timeframe →
        (process step (repFeed step M inputs k) inputs).2 ≠ inputs) := by
  have h := ttlGo_spec step timeframe inputs M 0
  simp only [Nat.zero_add] at h
  exact h

theorem claim_C2_time_to_learn_witness :
    ([false] : List Bool) ≠ [] ∧
    ((time_to_learn (fun (_ : Unit) (p : Bool) => ((), p)) ⟨(), false⟩ [false] 3).1 ≤ 3 ∧
    ((time_to_learn (fun (_ : Unit) (p : Bool) => ((), p)) ⟨(), false⟩ [false] 3).1 < 3 →
      ∃ k, (time_to_learn (fun (_ : Unit) (p : Bool) => ((), p)) ⟨(), false⟩ [false] 3).1 =
          k * ([false] : List Bool).length ∧
        (process (fun (_ : Unit) (p : Bool) => ((), p))
            (repFeed (fun (_ : Unit) (p : Bool) => ((), p)) ⟨(), false⟩ [false] k) [false]).2 =
          [false] ∧
        ∀ j < k, (process (fun (_ : Unit) (p : Bool) => ((), p))
            (repFeed (fun (_ : Unit) (p : Bool) => ((), p)) ⟨(), false⟩ [false] j) [false]).2 ≠
          [false]) ∧
    ((time_to_learn (fun (_ : Unit) (p : Bool) => ((), p)) ⟨(), false⟩ [false] 3).1 = 3 →
      ∀ k, k * ([false] : List Bool).length < 3 →
        (process (fun (_ : Unit) (p : Bool) => ((), p))
            (repFeed (fun (_ : Unit) (p : Bool) => ((), p)) ⟨(), false⟩ [false] k) [false]).2 ≠
          [false])) :=
  ⟨by decide, claim_C2_time_to_learn (fun (_ : Unit) (p : Bool) => ((), p)) 3 [false]
      ⟨(), false⟩ (by decide)⟩

/-- C10: calling `time_to_learn` with the empty sequence and a positive
timeframe returns 0 immediately and leaves the model — capability state
and cached prediction — unchanged: the empty prediction list equals the
empty input list at the very first comparison, so no input is ever fed. -/
theorem claim_C10_ttl_empty (M : Model σ P) (timeframe : Nat) (hT : 0 < timeframe) :
    time_to_learn step M [] timeframe = (0, M) := by
  rw [time_to_learn]
  unfold ttlGo
  rw [dif_pos hT]
  simp [process]

theorem claim_C10_ttl_empty_witness :
    (0 : Nat) < 2 ∧
    time_to_learn (fun (_ : Unit) (p : Bool) => ((), p)) ⟨(), true⟩ [] 2 =
      (0, (⟨(), true⟩ : Model Unit Bool)) :=
  ⟨by decide, claim_C10_ttl_empty (fun (_ : Unit) (p : Bool) => ((), p)) ⟨(), true⟩ 2
      (by decide)⟩

end TimeToLearn

/-- C3 counterexample: the defaulted `operator==` is memberwise structural
equality, so two models with equal wrapped capabilities but different
cached predictions are NOT equal, refuting "A == B iff the wrapped
capabilities are equal". -/
theorem claim_C3_counterexample :
    ¬ (((⟨0, [true]⟩ : Model Nat (List Bool)) = ⟨0, [false]⟩) ↔
       (Model.model (⟨0, [true]⟩ : Model Nat (List Bool)) =
        Model.model (⟨0, [false]⟩ : Model Nat (List Bool)))) := by
  decide

/-- C3 amended: two model instances compare equal iff their wrapped
capabilities are equal AND their cached predictions are equal (the
defaulted `operator==` compares every member, including
`current_prediction`). -/
theorem claim_C3_amended {σ P : Type} (A B : Model σ P) :
    A = B ↔ A.model = B.model ∧ A.current_prediction = B.current_prediction := by
  constructor
  · intro h
    rw [h]
    exact ⟨rfl, rfl⟩
  · intro h
    cases A
    cases B
    simp_all

/-- C7: `generate(n)` returns a sequence of length exactly `n`
(`generate(0)` empty); the final model state is the fold of exposing
exactly the emitted patterns, and the pattern at each index `i` is the
model's cached prediction after consuming only the previously emitted
patterns — the model never consumes anything but its own prior
predictions. -/
theorem claim_C7_generate {σ P : Type} (step : σ → P → σ × P) (n : Nat) (M : Model σ P) :
    (generate step 0 M).1 = ([] : List P) ∧
    (generate step n M).1.length = n ∧
    (generate step n M).2 = feedAll step M (generate step n M).1 ∧
    ∀ i, i < n → (generate step n M).1[i]? =
      some ((feedAll step M ((generate step n M).1.take i)).current_prediction) := by
  exact ⟨rfl, generate_length step n M, generate_state step n M,
    fun i hi => generate_get step n M i hi⟩

section Learnable

variable {σ : Type} (step : σ → List Bool → σ × List Bool)

/-- Outcome of `Model::learnable_random_sequence`: either a sequence is
returned, or the function prints an error and calls `exit(-1)` (a fatal
configuration error), modelled as `fatal`. -/
inductive LearnOutcome where
  | found : List (List Bool) → LearnOutcome
  | fatal : LearnOutcome
deriving DecidableEq

/-- The loop of `Model::learnable_random_sequence`:
`for (time = 0; time < timeframe; time += length)`; each iteration draws a
fresh circular_random sequence (with its own Bernoulli streams
`draws time`, `lastDraws time`) and tries to teach it to a fresh
default-constructed model.  A `none` result models the undefined behaviour
inherited from `circular_random` on degenerate lengths. -/
def lrsGo (init : σ) (w length timeframe : Nat)
    (draws : Nat → Nat → Nat → Bool) (lastDraws : Nat → Nat → Bool)
    (time : Nat) : Option LearnOutcome :=
  if h : time < timeframe then
    match hc : circularRandomSeq w length (draws time) (lastDraws time) with
    | none => none
    | some s =>
      if learn step ⟨init, patZero w⟩ s timeframe then some (.found s)
      else lrsGo init w length timeframe draws lastDraws (time + length)
  else some .fatal
termination_by timeframe - time
decreasing_by
  cases hl : length with
  | zero =>
    rw [hl] at hc
    simp [circularRandomSeq, randomSeq] at hc
  | succ m => omega

/-- Embeds `Model::learnable_random_sequence(length, timeframe)`. -/
def learnable_random_sequence (init : σ) (w length timeframe : Nat)
    (draws : Nat → Nat → Nat → Bool) (lastDraws : Nat → Nat → Bool) :
    Option LearnOutcome :=
  lrsGo step init w length timeframe draws lastDraws 0

theorem lrsGo_eq_some (init : σ) (w length timeframe : Nat)
    (draws : Nat → Nat → Nat → Bool) (lastDraws : Nat → Nat → Bool)
    (time : Nat) (s : List (List Bool)) (h : time < timeframe)
    (hc : circularRandomSeq w length (draws time) (lastDraws time) = some s) :
    lrsGo step init w length timeframe draws lastDraws time =
      if learn step ⟨init, patZero w⟩ s timeframe then some (.found s)
      else lrsGo step init w length timeframe draws lastDraws (time + length) := by
  rw [lrsGo, dif_pos h]
  split
  · next heqn => rw [heqn] at hc; exact absurd hc (by simp)
  · next s2 heq2 =>
    rw [heq2] at hc
    injection hc with hc
    subst hc
    rfl

theorem lrsGo_spec (init : σ) (w length timeframe : Nat)
    (draws : Nat → Nat → Nat → Bool) (lastDraws : Nat → Nat → Bool)
    (h2 : 2 ≤ length) (time : Nat) :
    lrsGo step init w length timeframe draws lastDraws time = some .fatal ∨
    ∃ s, lrsGo step init w length timeframe draws lastDraws time = some (.found s) ∧
      s.length = length ∧ circularAdmissible w s ∧
      (time_to_learn step ⟨init, patZero w⟩ s timeframe).1 < timeframe := by
  induction time using lrsGo.induct step init w length timeframe draws lastDraws with
  | case1 time h hc =>
    obtain ⟨s', heq, _, _⟩ := circularRandomSeq_spec w length (draws time)
      (lastDraws time) h2
    rw [heq] at hc
    exact absurd hc (by simp)
  | case2 time h s hc hlearn =>
    right
    obtain ⟨s', heq, hslen, hadm⟩ := circularRandomSeq_spec w length (draws time)
      (lastDraws time) h2
    have hs : s' = s := by rw [hc] at heq; exact Option.some.inj heq.symm
    subst hs
    refine ⟨s', ?_, hslen, hadm, ?_⟩
    · rw [lrsGo_eq_some step init w length timeframe draws lastDraws time s' h hc,
        if_pos hlearn]
    · simpa [learn] using hlearn
  | case3 time h s hc hlearn ih =>
    rw [lrsGo_eq_some step init w length timeframe draws lastDraws time s h hc,
      if_neg hlearn]
    exact ih
  | case4 time h =>
    left
    rw [lrsGo, dif_neg h]

/-- C8: for every length ≥ 2, `learnable_random_sequence` either returns a
circular refractory-admissible sequence of the requested length that a
fresh default-constructed model learns within the timeframe, or signals a
fatal configuration error (exit(-1)) after exhausting the
timeframe-bounded search — it never returns anything else. -/
theorem claim_C8_learnable_random_sequence (init : σ) (w length timeframe : Nat)
    (draws : Nat → Nat → Nat → Bool) (lastDraws : Nat → Nat → Bool)
    (h2 : 2 ≤ length) :
    learnable_random_sequence step init w length timeframe draws lastDraws =
      some .fatal ∨
    ∃ s, learnable_random_sequence step init w length timeframe draws lastDraws =
        some (.found s) ∧
      s.length = length ∧ circularAdmissible w s ∧
      (time_to_learn step ⟨init, patZero w⟩ s timeframe).1 < timeframe :=
  lrsGo_spec step init w length timeframe draws lastDraws h2 0

end Learnable

theorem claim_C8_learnable_random_sequence_witness :
    (2 : Nat) ≤ 2 ∧
    (learnable_random_sequence (fun (_ : Unit) (p : List Bool) => ((), p)) () 2 2 4
        (fun _ _ _ => false) (fun _ _ => false) = some .fatal ∨
    ∃ s, learnable_random_sequence (fun (_ : Unit) (p : List Bool) => ((), p)) () 2 2 4
        (fun _ _ _ => false) (fun _ _ => false) = some (.found s) ∧
      s.length = 2 ∧ circularAdmissible 2 s ∧
      (time_to_learn (fun (_ : Unit) (p : List Bool) => ((), p)) ⟨(), patZero 2⟩ s 4).1 < 4) :=
  ⟨by decide,
    claim_C8_learnable_random_sequence (fun (_ : Unit) (p : List Bool) => ((), p)) () 2 2 4
      (fun _ _ _ => false) (fun _ _ => false) (by decide)⟩

theorem claim_C7_generate_witness :
    (0 : Nat) < 2 ∧
    (generate (fun (s : Nat) (p : Bool) => (s + 1, p)) 2 ⟨0, true⟩).1[0]? =
      some ((feedAll (fun (s : Nat) (p : Bool) => (s + 1, p)) ⟨0, true⟩
        ((generate (fun (s : Nat) (p : Bool) => (s + 1, p)) 2 ⟨0, true⟩).1.take 0)).current_prediction) :=
  ⟨by decide,
    (claim_C7_generate (fun (s : Nat) (p : Bool) => (s + 1, p)) 2 ⟨0, true⟩).2.2.2 0
      (by decide)⟩

/-! ## The significance test (`consistently_greater_second_value`)

The C++ double arithmetic is modelled exactly over `ℚ`.  The final
comparison `z > threshold` with `z = (W⁺ − μ − cc) / sqrt(var)` is
embedded by the exact equivalent `0 < num ∧ threshold² · var < num²`
(valid for `var > 0`, `threshold ≥ 0`; see `zExceeds_iff_sqrt`). -/

/-- Signed absolute differences of the non-tied pairs, in input order (the
first loop of `consistently_greater_second_value`): skips pairs with
`v1 = v2`, records `(v2 − v1, +1)` or `(v1 − v2, −1)`. -/
def signedAbsDiffs (V1 V2 : List Nat) : List (Nat × Int) :=
  (List.zip V1 V2).filterMap (fun q =>
    if q.1 = q.2 then none
    else if q.2 > q.1 then some (q.2 - q.1, 1) else some (q.1 - q.2, -1))

/-- Insertion of an element into a list sorted ascending by absolute
difference. -/
def insertByAbs (x : Nat × Int) : List (Nat × Int) → List (Nat × Int)
  | [] => [x]
  | y :: ys => if x.1 ≤ y.1 then x :: y :: ys else y :: insertByAbs x ys

/-- Models `std::sort(diffs, ... x.abs_diff < y.abs_diff)`: an insertion
sort ascending by absolute difference.  `std::sort` is an unspecified
comparison sort and rank contributions depend only on the tie groups, so
any sort by `abs_diff` is an equivalent model. -/
def sortByAbs (l : List (Nat × Int)) : List (Nat × Int) :=
  l.foldr insertByAbs []

/-- The sorted diffs split into maximal runs of equal absolute difference,
as walked by the ranking loop. -/
def rankGroups (V1 V2 : List Nat) : List (List (Nat × Int)) :=
  (sortByAbs (signedAbsDiffs V1 V2)).splitBy (fun x y => x.1 == y.1)

/-- The ranking walk over the tie groups (second loop): accumulates `W⁺`
(each positive-sign element contributes the group's average rank
`((i+1)+j)/2`) and the tie correction `Σ t·(t²−1)`.  `i` counts elements
consumed so far. -/
def wilcoxonWalk : List (List (Nat × Int)) → Nat → ℚ × ℚ
  | [], _ => (0, 0)
  | g :: gs, i =>
    let j := i + g.length
    let t := g.length
    let avgRank : ℚ := ((i : ℚ) + 1 + (j : ℚ)) / 2
    let wp := g.foldl (fun acc x => if 0 < x.2 then acc + avgRank else acc) (0 : ℚ)
    let tc : ℚ := if 1 < t then (t : ℚ) * ((t : ℚ) * (t : ℚ) - 1) else 0
    let r := wilcoxonWalk gs j
    (wp + r.1, tc + r.2)

/-- The guard constant `min_nonzero_pairs` of
`consistently_greater_second_value`. -/
def min_nonzero_pairs : Nat := 20

/-- The default `one_sided_z_threshold` (3.090, the AGITB setting). -/
def default_z_threshold : ℚ := 3.090

/-- Exact-rational embedding of the comparison `num / sqrt(var) > thr`. -/
def zExceeds (num variance thr : ℚ) : Bool :=
  decide (0 < num) && decide (thr ^ 2 * variance < num ^ 2)

/-- The variance `n(n+1)(2n+1)/24 − tieCorr/48` computed by
`consistently_greater_second_value` (factored out so the guard can be
stated about it). -/
def wilcoxonVariance (V1 V2 : List Nat) : ℚ :=
  let n := (signedAbsDiffs V1 V2).length
  (n : ℚ) * ((n : ℚ) + 1) * (2 * (n : ℚ) + 1) / 24 -
    (wilcoxonWalk (rankGroups V1 V2) 0).2 / 48

/-- Embeds `consistently_greater_second_value(V1, V2, thr)` from
`include/utils.h`. -/
def consistently_greater_second_value (V1 V2 : List Nat) (thr : ℚ) : Bool :=
  let n := (signedAbsDiffs V1 V2).length
  if n < min_nonzero_pairs then false
  else
    let Wplus := (wilcoxonWalk (rankGroups V1 V2) 0).1
    let mu : ℚ := (n : ℚ) * ((n : ℚ) + 1) / 4
    let variance := wilcoxonVariance V1 V2
    if variance ≤ 0 then false
    else
      let cc : ℚ := if Wplus > mu then 1 / 2 else 0
      zExceeds (Wplus - mu - cc) variance thr

/-- Modelled from the spec: identical pipeline, but the continuity
correction of 0.5 is applied toward the mean whenever `W⁺` differs from
`μ` (`c = +0.5` for `W⁺ > μ`, `c = −0.5` for `W⁺ < μ`), returning true
iff `z` exceeds the threshold (the guards are assumed discharged by the
claim's hypotheses). -/
def spec_directed_verdict (V1 V2 : List Nat) (thr : ℚ) : Bool :=
  let n := (signedAbsDiffs V1 V2).length
  let Wplus := (wilcoxonWalk (rankGroups V1 V2) 0).1
  let mu : ℚ := (n : ℚ) * ((n : ℚ) + 1) / 4
  let variance := wilcoxonVariance V1 V2
  let cc : ℚ := if Wplus > mu then 1 / 2 else if Wplus < mu then -(1 / 2) else 0
  zExceeds (Wplus - mu - cc) variance thr

/-- The embedding of `z > thr` is exact: for positive variance and a
nonnegative threshold it coincides with the real-number comparison
against `num / sqrt(var)`. -/
theorem zExceeds_iff_sqrt (num v thr : ℚ) (hv : (0 : ℝ) < (v : ℝ))
    (ht : (0 : ℝ) ≤ (thr : ℝ)) :
    zExceeds num v thr = true ↔ (thr : ℝ) < (num : ℝ) / Real.sqrt (v : ℝ) := by
  have hs : 0 < Real.sqrt (v : ℝ) := Real.sqrt_pos.mpr hv
  have hs2 : Real.sqrt (v : ℝ) * Real.sqrt (v : ℝ) = (v : ℝ) :=
    Real.mul_self_sqrt hv.le
  rw [lt_div_iff₀ hs]
  simp only [zExceeds, Bool.and_eq_true, decide_eq_true_eq]
  constructor
  · rintro ⟨h1, h2⟩
    have h1r : (0 : ℝ) < (num : ℝ) := by exact_mod_cast h1
    have h2r : (thr : ℝ) ^ 2 * (v : ℝ) < (num : ℝ) ^ 2 := by exact_mod_cast h2
    nlinarith [mul_nonneg ht hs.le]
  · intro h
    have hts : (0 : ℝ) ≤ (thr : ℝ) * Real.sqrt (v : ℝ) := mul_nonneg ht hs.le
    have hnum : (0 : ℝ) < (num : ℝ) := lt_of_le_of_lt hts h
    refine ⟨by exact_mod_cast hnum, ?_⟩
    have h2r : (thr : ℝ) ^ 2 * (v : ℝ) < (num : ℝ) ^ 2 := by nlinarith
    exact_mod_cast h2r

/-- C4: the test returns false when fewer than `min_nonzero_pairs`
(a fixed constant in the range 10–20, namely 20) pairs differ, and
returns false when the tie-corrected variance is non-positive. -/
theorem claim_C4_wilcoxon_guards (V1 V2 : List Nat) (thr : ℚ)
    (hlen : V1.length = V2.length) :
    10 ≤ min_nonzero_pairs ∧ min_nonzero_pairs ≤ 20 ∧
    ((signedAbsDiffs V1 V2).length < min_nonzero_pairs →
      consistently_greater_second_value V1 V2 thr = false) ∧
    (wilcoxonVariance V1 V2 ≤ 0 →
      consistently_greater_second_value V1 V2 thr = false) := by
  refine ⟨by decide, by decide, ?_, ?_⟩
  · intro h
    simp only [consistently_greater_second_value]
    rw [if_pos h]
  · intro hv
    simp only [consistently_greater_second_value]
    by_cases h : (signedAbsDiffs V1 V2).length < min_nonzero_pairs
    · rw [if_pos h]
    · rw [if_neg h, if_pos hv]

theorem foldl_avgRank (g : List (Nat × Int)) (r a : ℚ) :
    g.foldl (fun acc x => if 0 < x.2 then acc + r else acc) a =
      a + r * ((g.countP (fun x => decide (0 < x.2)) : ℕ) : ℚ) := by
  induction g generalizing a with
  | nil => simp
  | cons x xs ih =>
    rw [List.foldl_cons, List.countP_cons]
    by_cases hx : 0 < x.2
    · have hx' : decide (0 < x.2) = true := decide_eq_true hx
      rw [if_pos hx, ih]
      simp only [hx']
      push_cast
      ring
    · have hx' : decide (0 < x.2) = false := decide_eq_false hx
      rw [if_neg hx, ih]
      simp only [hx']
      push_cast
      ring

/-- Twice the accumulated `W⁺` is a natural number: every midrank is a
half-integer and `W⁺` is a sum of midranks. -/
theorem wilcoxonWalk_wplus_half (gs : List (List (Nat × Int))) (i : Nat) :
    ∃ m : ℕ, 2 * (wilcoxonWalk gs i).1 = (m : ℚ) := by
  induction gs generalizing i with
  | nil => exact ⟨0, by simp [wilcoxonWalk]⟩
  | cons g gs ih =>
    obtain ⟨m', hm'⟩ := ih (i + g.length)
    refine ⟨(i + 1 + (i + g.length)) * g.countP (fun x => decide (0 < x.2)) + m', ?_⟩
    simp only [wilcoxonWalk]
    rw [foldl_avgRank]
    push_cast
    linear_combination hm'

/-- Twice the null mean `n(n+1)/4` is also a natural number, so when
`W⁺ < μ` the gap is at least one half. -/
theorem wplus_gap (n : Nat) (W : ℚ) (hhalf : ∃ m : ℕ, 2 * W = (m : ℚ))
    (hlt : W < (n : ℚ) * ((n : ℚ) + 1) / 4) :
    W + 1 / 2 ≤ (n : ℚ) * ((n : ℚ) + 1) / 4 := by
  obtain ⟨a, ha⟩ := hhalf
  obtain ⟨k, hk⟩ := Nat.even_mul_succ_self n
  have hcast : (n : ℚ) * ((n : ℚ) + 1) = (k : ℚ) + (k : ℚ) := by exact_mod_cast hk
  rw [hcast] at hlt ⊢
  have hak : (a : ℚ) < (k : ℚ) := by linarith
  have hakn : a < k := by exact_mod_cast hak
  have hsq : (a : ℚ) + 1 ≤ (k : ℚ) := by exact_mod_cast hakn
  linarith

/-- The code's one-sided continuity correction (`0.5` only when `W⁺ > μ`)
and the spec's symmetric correction (`±0.5` toward the mean) produce the
same verdict: when `W⁺ < μ` the numerator is at most 0 under either
correction because `W⁺ − μ` is a half-integer, so the test is false
either way. -/
theorem zExceeds_cc_agree (n : Nat) (W v thr : ℚ)
    (hhalf : ∃ m : ℕ, 2 * W = (m : ℚ)) :
    zExceeds (W - (n : ℚ) * ((n : ℚ) + 1) / 4 -
        (if (n : ℚ) * ((n : ℚ) + 1) / 4 < W then 1 / 2 else 0)) v thr =
    zExceeds (W - (n : ℚ) * ((n : ℚ) + 1) / 4 -
        (if (n : ℚ) * ((n : ℚ) + 1) / 4 < W then 1 / 2
         else if W < (n : ℚ) * ((n : ℚ) + 1) / 4 then -(1 / 2) else 0)) v thr := by
  set mu : ℚ := (n : ℚ) * ((n : ℚ) + 1) / 4 with hmu
  rcases lt_trichotomy W mu with hlt | heq | hgt
  · rw [if_neg (lt_asymm hlt), if_neg (lt_asymm hlt), if_pos hlt]
    have hgap : W + 1 / 2 ≤ mu := wplus_gap n W hhalf (by rw [← hmu] at *; exact hlt)
    have h1 : ¬(0 < W - mu - 0) := by linarith
    have h2 : ¬(0 < W - mu - -(1 / 2)) := by linarith
    simp only [zExceeds]
    rw [decide_eq_false h1, decide_eq_false h2]
    simp
  · rw [heq]
    simp [lt_irrefl]
  · rw [if_pos hgt, if_pos hgt]

theorem claim_C4_wilcoxon_guards_witness :
    ([] : List Nat).length = ([] : List Nat).length ∧
    (10 ≤ min_nonzero_pairs ∧ min_nonzero_pairs ≤ 20 ∧
    ((signedAbsDiffs [] []).length < min_nonzero_pairs →
      consistently_greater_second_value [] [] default_z_threshold = false) ∧
    (wilcoxonVariance [] [] ≤ 0 →
      consistently_greater_second_value [] [] default_z_threshold = false)) :=
  ⟨by decide, claim_C4_wilcoxon_guards [] [] default_z_threshold (by decide)⟩

/-- C5: with at least `min_nonzero_pairs` differing pairs and positive
tie-corrected variance, the test's verdict at the default threshold 3.090
coincides with the spec's formula `z = (W⁺ − μ − c)/σ` in which the 0.5
continuity correction is directed toward the mean whenever `W⁺ ≠ μ`, true
iff `z` exceeds the threshold.  (The code applies the correction only when
`W⁺ > μ`, but since `W⁺ − μ` is a half-integer the verdicts agree on
every input.) -/
theorem claim_C5_wilcoxon_z (V1 V2 : List Nat)
    (hlen : V1.length = V2.length)
    (hn : min_nonzero_pairs ≤ (signedAbsDiffs V1 V2).length)
    (hv : 0 < wilcoxonVariance V1 V2) :
    consistently_greater_second_value V1 V2 default_z_threshold =
      spec_directed_verdict V1 V2 default_z_threshold := by
  simp only [consistently_greater_second_value, spec_directed_verdict]
  rw [if_neg (by omega), if_neg (not_le.mpr hv)]
  exact zExceeds_cc_agree ((signedAbsDiffs V1 V2).length)
    ((wilcoxonWalk (rankGroups V1 V2) 0).1) (wilcoxonVariance V1 V2)
    default_z_threshold (wilcoxonWalk_wplus_half (rankGroups V1 V2) 0)

theorem wilcoxonVariance_pos_at_witness :
    0 < wilcoxonVariance (List.replicate 20 0) (List.replicate 20 1) := by
  have h0 : (signedAbsDiffs (List.replicate 20 0) (List.replicate 20 1)).length = 20 := by
    decide
  have h1 : rankGroups (List.replicate 20 0) (List.replicate 20 1) =
      [List.replicate 20 ((1 : Nat), (1 : Int))] := by decide
  simp only [wilcoxonVariance, h0, h1, wilcoxonWalk, List.length_replicate]
  norm_num

theorem claim_C5_wilcoxon_z_witness :
    (List.replicate 20 (0 : Nat)).length = (List.replicate 20 (1 : Nat)).length ∧
    min_nonzero_pairs ≤ (signedAbsDiffs (List.replicate 20 0) (List.replicate 20 1)).length ∧
    0 < wilcoxonVariance (List.replicate 20 0) (List.replicate 20 1) ∧
    consistently_greater_second_value (List.replicate 20 0) (List.replicate 20 1)
        default_z_threshold =
      spec_directed_verdict (List.replicate 20 0) (List.replicate 20 1)
        default_z_threshold :=
  ⟨by decide, by decide, wilcoxonVariance_pos_at_witness,
    claim_C5_wilcoxon_z (List.replicate 20 0) (List.replicate 20 1)
      (by decide) (by decide) wilcoxonVariance_pos_at_witness⟩

end AGITB
